import Mathlib

/-!
# Yahtzee scoring rule engine — formal model

Shallow embedding of the scoring rule engine (`Rules.js`) of a
browser Yahtzee game.  Dice values and scores are modelled as `Int`
(JS numbers holding small integers); a hand is a `List Int`.

The JS source defines an abstract `Rule` class with helpers
`sum`, `freq`, `count`, six concrete rule kinds (subclasses), and
thirteen pre-configured rule instances exported as the category
registry.
-/

namespace Rules

/-- `Rule.sum(dice)`: `dice.reduce((prev, curr) => prev + curr)`.
JS `reduce` without an initial value starts from the head; on an
empty array it throws (the engine never calls `sum` on an empty
hand, so the `[]` branch is unreachable). -/
def sum (dice : List Int) : Int :=
  match dice with
  | [] => 0
  | d :: ds => ds.foldl (· + ·) d

/-- `Rule.count(dice, val)`: `dice.filter((d) => d === val).length`. -/
def count (dice : List Int) (val : Int) : Nat :=
  (dice.filter (fun d => d == val)).length

/-- Insertion-order key list of a JS `Map`/`Set` built by iterating
`dice`: a key is appended the first time it is seen. -/
def mapKeys (dice : List Int) : List Int :=
  dice.foldl (fun ks d => if ks.contains d then ks else ks ++ [d]) []

/-- `Rule.freq(dice)`: the values of the insertion-ordered frequency
`Map` — for each distinct die value in first-seen order, its number
of occurrences. -/
def freq (dice : List Int) : List Nat :=
  (mapKeys dice).map (fun k => count dice k)

/-- The six rule kinds of the source, as a closed tagged union.  Each
constructor carries the parameters the JS code passes to the
constructor parameter bag (`val`, `count` threshold, flat `score`). -/
inductive RuleInst where
  | totalOneNumber (val : Int)
  | sumDistro (cnt : Nat)
  | fullHouse (score : Int)
  | smallStraight (score : Int)
  | largeStraight (score : Int)
  | yahtzee (score : Int)
deriving DecidableEq, Repr

/-- `evalRoll` of each rule kind, transcribed clause by clause from the
JS subclasses:

* `TotalOneNumber`: `this.val * this.count(dice, this.val)`;
* `SumDistro`: `this.freq(dice).some((c) => c >= this.count) ? this.sum(dice) : 0`;
* `FullHouse`: sort the frequency array and test
  `frqArr[0] === 2 && frqArr[1] === 3` (frequencies of a hand are
  single digits, so JS default string sort is numeric ascending;
  an out-of-range JS index yields `undefined`, which compares unequal
  to 2 and 3 — modelled by `getD` with default 0, a value no
  frequency of a present key can take);
* `SmallStraight`: membership tests on `new Set(dice)`;
* `LargeStraight`: `d.size === 5 && (!d.has(1) || !d.has(6))`;
* `Yahtzee`: `this.freq(dice)[0] === 5`. -/
def evalRoll : RuleInst → List Int → Int
  | .totalOneNumber val, dice => val * (count dice val : Int)
  | .sumDistro cnt, dice =>
      if (freq dice).any (fun c => cnt ≤ c) then sum dice else 0
  | .fullHouse score, dice =>
      let frqArr := List.insertionSort (· ≤ ·) (freq dice)
      if frqArr.getD 0 0 == 2 && frqArr.getD 1 0 == 3 then score else 0
  | .smallStraight score, dice =>
      let d := mapKeys dice
      if d.contains 2 && d.contains 3 && d.contains 4
          && (!(d.contains 1) || !(d.contains 5)) then score
      else if d.contains 3 && d.contains 4 && d.contains 5
          && (!(d.contains 2) || !(d.contains 6)) then score
      else 0
  | .largeStraight score, dice =>
      let d := mapKeys dice
      if d.length == 5 && (!(d.contains 1) || !(d.contains 6)) then score
      else 0
  | .yahtzee score, dice =>
      if (freq dice).getD 0 0 == 5 then score else 0

-- The thirteen pre-configured rule instances of the source module.
def ones : RuleInst := .totalOneNumber 1
def twos : RuleInst := .totalOneNumber 2
def threes : RuleInst := .totalOneNumber 3
def fours : RuleInst := .totalOneNumber 4
def fives : RuleInst := .totalOneNumber 5
def sixes : RuleInst := .totalOneNumber 6
def threeOfKind : RuleInst := .sumDistro 3
def fourOfKind : RuleInst := .sumDistro 4
def fullHouse : RuleInst := .fullHouse 25
def smallStraight : RuleInst := .smallStraight 30
def largeStraight : RuleInst := .largeStraight 40
def yahtzee : RuleInst := .yahtzee 50
def chance : RuleInst := .sumDistro 0

/-- The category registry: the source module exports exactly these
thirteen named rule instances. -/
def registry : List (String × RuleInst) :=
  [("ones", ones), ("twos", twos), ("threes", threes), ("fours", fours),
   ("fives", fives), ("sixes", sixes), ("threeOfKind", threeOfKind),
   ("fourOfKind", fourOfKind), ("fullHouse", fullHouse),
   ("smallStraight", smallStraight), ("largeStraight", largeStraight),
   ("yahtzee", yahtzee), ("chance", chance)]

/-- The thirteen registered category names. -/
def categoryNames : List String := registry.map Prod.fst

/-- The thirteen configured rule instances. -/
def theRules : List RuleInst := registry.map Prod.snd

/-- The error taxonomy of the specification. -/
inductive ScoreError where
  | invalidHand
  | unknownCategory
deriving DecidableEq, Repr

/-- Modelled from the spec: the dispatcher `score(categoryName, hand)`
is not among the given source files (only the thirteen rule exports
are); per the spec it looks the category up in the registry —
raising `UnknownCategoryError` when the name is absent — and
evaluates the found rule against the hand.  The evaluation itself is
the source's `evalRoll`; the source rule classes contain no
hand-validation guard, so none is modelled here. -/
def score (name : String) (dice : List Int) : Except ScoreError Int :=
  match registry.lookup name with
  | some r => .ok (evalRoll r dice)
  | none => .error .unknownCategory

/-- A structurally valid hand: exactly 5 values, each in [1,6]. -/
def validHand (dice : List Int) : Prop :=
  dice.length = 5 ∧ ∀ d ∈ dice, 1 ≤ d ∧ d ≤ 6

instance (dice : List Int) : Decidable (validHand dice) := by
  unfold validHand; infer_instance

/-! ## Spec-side predicates

These follow the wording of the specification (not the code) and are
compared with the code-side `evalRoll` in the theorems below. -/

/-- Spec wording (§4.4 gloss / claim C3): the hand's distinct values
include four consecutive values. -/
def FourRun (dice : List Int) : Prop :=
  ((1 : Int) ∈ dice ∧ (2 : Int) ∈ dice ∧ (3 : Int) ∈ dice ∧ (4 : Int) ∈ dice) ∨
  ((2 : Int) ∈ dice ∧ (3 : Int) ∈ dice ∧ (4 : Int) ∈ dice ∧ (5 : Int) ∈ dice) ∨
  ((3 : Int) ∈ dice ∧ (4 : Int) ∈ dice ∧ (5 : Int) ∈ dice ∧ (6 : Int) ∈ dice)

instance (dice : List Int) : Decidable (FourRun dice) := by
  unfold FourRun; infer_instance

/-- Spec wording (§4.4): the distinct-value set contains {2,3,4} and
not both 1 and 5 are simultaneously present, or contains {3,4,5} and
not both 2 and 6 are simultaneously present. -/
def SpecSmallStraight (dice : List Int) : Prop :=
  ((2 : Int) ∈ dice ∧ (3 : Int) ∈ dice ∧ (4 : Int) ∈ dice ∧
    ¬((1 : Int) ∈ dice ∧ (5 : Int) ∈ dice)) ∨
  ((3 : Int) ∈ dice ∧ (4 : Int) ∈ dice ∧ (5 : Int) ∈ dice ∧
    ¬((2 : Int) ∈ dice ∧ (6 : Int) ∈ dice))

instance (dice : List Int) : Decidable (SpecSmallStraight dice) := by
  unfold SpecSmallStraight; infer_instance

/-- Spec wording (§4.3): one value appears exactly twice and another
value appears exactly three times. -/
def SpecFullHouse (dice : List Int) : Prop :=
  ∃ v w : Int, v ≠ w ∧ dice.count v = 2 ∧ dice.count w = 3

/-- Spec wording (§4.5): the hand has exactly 5 distinct values and
not both 1 and 6 are present. -/
def SpecLargeStraight (dice : List Int) : Prop :=
  dice.dedup.length = 5 ∧ ¬((1 : Int) ∈ dice ∧ (6 : Int) ∈ dice)

instance (dice : List Int) : Decidable (SpecLargeStraight dice) := by
  unfold SpecLargeStraight; infer_instance

/-- Spec wording (§4.6): all five dice are identical. -/
def SpecYahtzee (dice : List Int) : Prop :=
  ∃ v ∈ dice, ∀ x ∈ dice, x = v

/-! ## Helper lemmas about the JS `Map`/`Set` model -/

theorem mem_foldl_keys (dice : List Int) : ∀ (ks : List Int) (v : Int),
    (v ∈ dice.foldl
        (fun ks d => if ks.contains d then ks else ks ++ [d]) ks) ↔
      v ∈ ks ∨ v ∈ dice := by
  induction dice with
  | nil => simp
  | cons d ds ih =>
    intro ks v
    simp only [List.foldl_cons]
    rw [ih]
    by_cases hd : ks.contains d = true
    · have hdm : d ∈ ks := List.elem_iff.mp hd
      simp only [hd, if_pos, List.mem_cons]
      constructor
      · rintro (hk | hds) <;> tauto
      · rintro (hk | rfl | hds) <;> tauto
    · simp only [hd, if_neg, List.mem_append, List.mem_singleton,
        List.mem_cons, Bool.not_eq_true]
      tauto

theorem mem_mapKeys {dice : List Int} {v : Int} :
    v ∈ mapKeys dice ↔ v ∈ dice := by
  unfold mapKeys
  rw [mem_foldl_keys]
  simp

theorem nodup_foldl_keys (dice : List Int) : ∀ ks : List Int, ks.Nodup →
    (dice.foldl
        (fun ks d => if ks.contains d then ks else ks ++ [d]) ks).Nodup := by
  induction dice with
  | nil => exact fun ks h => h
  | cons d ds ih =>
    intro ks hks
    simp only [List.foldl_cons]
    by_cases hd : ks.contains d = true
    · rw [if_pos hd]
      exact ih ks hks
    · have hdm : d ∉ ks := by
        intro hmem
        exact hd (List.elem_iff.mpr hmem)
      rw [if_neg hd]
      refine ih _ (hks.append (List.nodup_singleton d) ?_)
      intro x hx hx1
      rw [List.mem_singleton] at hx1
      exact hdm (hx1 ▸ hx)

theorem nodup_mapKeys (dice : List Int) : (mapKeys dice).Nodup :=
  nodup_foldl_keys dice [] List.nodup_nil

theorem contains_mapKeys (dice : List Int) (v : Int) :
    ((mapKeys dice).contains v = true) ↔ v ∈ dice :=
  List.elem_iff.trans mem_mapKeys

theorem count_eq_listCount (dice : List Int) (v : Int) :
    count dice v = dice.count v := by
  induction dice with
  | nil => rfl
  | cons d ds ih =>
    by_cases h : d = v <;>
      simp [count, List.count_cons, List.filter_cons, h] at * <;> omega

theorem mem_freq {c : Nat} {dice : List Int} :
    c ∈ freq dice ↔ ∃ v ∈ dice, count dice v = c := by
  unfold freq
  simp only [List.mem_map]
  constructor
  · rintro ⟨v, hv, rfl⟩
    exact ⟨v, mem_mapKeys.mp hv, rfl⟩
  · rintro ⟨v, hv, rfl⟩
    exact ⟨v, mem_mapKeys.mpr hv, rfl⟩

theorem foldl_add_int (l : List Int) : ∀ a : Int,
    l.foldl (· + ·) a = a + l.sum := by
  induction l with
  | nil => simp
  | cons b t ih =>
    intro a
    simp only [List.foldl_cons, List.sum_cons, ih (a + b)]
    ring

theorem sum_eq_listSum {dice : List Int} (h : dice ≠ []) :
    sum dice = dice.sum := by
  match dice with
  | [] => exact absurd rfl h
  | d :: ds =>
    show ds.foldl (· + ·) d = (d :: ds).sum
    rw [foldl_add_int, List.sum_cons]

theorem mapKeys_perm_dedup (dice : List Int) :
    List.Perm (mapKeys dice) dice.dedup := by
  rw [List.perm_ext_iff_of_nodup (nodup_mapKeys dice) (List.nodup_dedup dice)]
  intro a
  rw [mem_mapKeys, List.mem_dedup]

theorem freq_sum (dice : List Int) : (freq dice).sum = dice.length := by
  unfold freq
  have hperm := (mapKeys_perm_dedup dice).map (fun k => count dice k)
  rw [hperm.sum_eq]
  have hmap : dice.dedup.map (fun k => count dice k) =
      dice.dedup.map (fun k => dice.count k) := by
    apply List.map_congr_left
    intro a _
    exact count_eq_listCount dice a
  rw [hmap]
  exact List.sum_map_count_dedup_eq_length dice

theorem contains_mapKeys_eq (dice : List Int) (v : Int) :
    (mapKeys dice).contains v = decide (v ∈ dice) := by
  by_cases h : v ∈ dice
  · rw [(contains_mapKeys dice v).mpr h, decide_eq_true h]
  · rw [decide_eq_false h]
    exact Bool.eq_false_iff.mpr fun hc => h ((contains_mapKeys dice v).mp hc)

theorem evalTotal_eq (val : Int) (dice : List Int) :
    evalRoll (.totalOneNumber val) dice = val * (dice.count val : Int) := by
  simp [evalRoll, count_eq_listCount]

theorem sumDistro_cond (cnt : Nat) (dice : List Int) :
    ((freq dice).any (fun c => cnt ≤ c) = true) ↔
      ∃ v ∈ dice, cnt ≤ dice.count v := by
  rw [List.any_eq_true]
  constructor
  · rintro ⟨c, hc, hle⟩
    obtain ⟨v, hv, rfl⟩ := mem_freq.mp hc
    exact ⟨v, hv, by
      rw [← count_eq_listCount]
      exact of_decide_eq_true hle⟩
  · rintro ⟨v, hv, hle⟩
    refine ⟨count dice v, mem_freq.mpr ⟨v, hv, rfl⟩, decide_eq_true ?_⟩
    rwa [count_eq_listCount]

theorem smallStraight_eval (dice : List Int) :
    evalRoll smallStraight dice =
      if SpecSmallStraight dice then 30 else 0 := by
  simp only [smallStraight, evalRoll, contains_mapKeys_eq]
  by_cases m1 : (1 : Int) ∈ dice <;> by_cases m2 : (2 : Int) ∈ dice <;>
    by_cases m3 : (3 : Int) ∈ dice <;> by_cases m4 : (4 : Int) ∈ dice <;>
    by_cases m5 : (5 : Int) ∈ dice <;> by_cases m6 : (6 : Int) ∈ dice <;>
    simp [SpecSmallStraight, m1, m2, m3, m4, m5, m6]

theorem length_mapKeys (dice : List Int) :
    (mapKeys dice).length = dice.dedup.length :=
  (mapKeys_perm_dedup dice).length_eq

theorem largeStraight_eval (dice : List Int) :
    evalRoll largeStraight dice =
      if SpecLargeStraight dice then 40 else 0 := by
  simp only [largeStraight, evalRoll, contains_mapKeys_eq, length_mapKeys]
  by_cases hl : dice.dedup.length = 5 <;> by_cases m1 : (1 : Int) ∈ dice <;>
    by_cases m6 : (6 : Int) ∈ dice <;>
    simp [SpecLargeStraight, hl, m1, m6]

/-- C5: for every valid hand and every upper-section category
ones..sixes with target value v, the score is v times the number of
dice equal to v. -/
theorem upperSection_scores (dice : List Int) (_h : validHand dice) :
    evalRoll ones dice = 1 * (dice.count 1 : Int) ∧
    evalRoll twos dice = 2 * (dice.count 2 : Int) ∧
    evalRoll threes dice = 3 * (dice.count 3 : Int) ∧
    evalRoll fours dice = 4 * (dice.count 4 : Int) ∧
    evalRoll fives dice = 5 * (dice.count 5 : Int) ∧
    evalRoll sixes dice = 6 * (dice.count 6 : Int) :=
  ⟨evalTotal_eq 1 dice, evalTotal_eq 2 dice, evalTotal_eq 3 dice,
   evalTotal_eq 4 dice, evalTotal_eq 5 dice, evalTotal_eq 6 dice⟩

theorem upperSection_scores_witness :
    validHand [1, 1, 2, 3, 4] ∧
      (evalRoll ones [1, 1, 2, 3, 4] = 1 * (List.count 1 [1, 1, 2, 3, 4] : Int) ∧
       evalRoll twos [1, 1, 2, 3, 4] = 2 * (List.count 2 [1, 1, 2, 3, 4] : Int) ∧
       evalRoll threes [1, 1, 2, 3, 4] = 3 * (List.count 3 [1, 1, 2, 3, 4] : Int) ∧
       evalRoll fours [1, 1, 2, 3, 4] = 4 * (List.count 4 [1, 1, 2, 3, 4] : Int) ∧
       evalRoll fives [1, 1, 2, 3, 4] = 5 * (List.count 5 [1, 1, 2, 3, 4] : Int) ∧
       evalRoll sixes [1, 1, 2, 3, 4] = 6 * (List.count 6 [1, 1, 2, 3, 4] : Int)) :=
  ⟨by decide, upperSection_scores [1, 1, 2, 3, 4] (by decide)⟩

/-- C6: for every valid hand, threeOfKind scores the sum of all dice
iff some value occurs at least 3 times (else 0), fourOfKind likewise
with threshold 4, and chance (threshold 0) always scores the sum. -/
theorem ofKind_chance_scores (dice : List Int) (h : validHand dice) :
    (evalRoll threeOfKind dice =
      if ∃ v ∈ dice, 3 ≤ dice.count v then dice.sum else 0) ∧
    (evalRoll fourOfKind dice =
      if ∃ v ∈ dice, 4 ≤ dice.count v then dice.sum else 0) ∧
    evalRoll chance dice = dice.sum := by
  obtain ⟨h5, hb⟩ := h
  have hne : dice ≠ [] := by
    intro he
    rw [he] at h5
    simp at h5
  have hsum := sum_eq_listSum hne
  refine ⟨?_, ?_, ?_⟩
  · have he : evalRoll threeOfKind dice =
        if (freq dice).any (fun c => 3 ≤ c) = true then sum dice else 0 := rfl
    rw [he, hsum]
    exact if_congr (sumDistro_cond 3 dice) rfl rfl
  · have he : evalRoll fourOfKind dice =
        if (freq dice).any (fun c => 4 ≤ c) = true then sum dice else 0 := rfl
    rw [he, hsum]
    exact if_congr (sumDistro_cond 4 dice) rfl rfl
  · have he : evalRoll chance dice =
        if (freq dice).any (fun c => 0 ≤ c) = true then sum dice else 0 := rfl
    rw [he, hsum, if_pos]
    match dice, hne with
    | d :: ds, _ =>
      exact (sumDistro_cond 0 (d :: ds)).mpr ⟨d, by simp, Nat.zero_le _⟩

theorem ofKind_chance_scores_witness :
    validHand [5, 5, 5, 2, 1] ∧
      ((evalRoll threeOfKind [5, 5, 5, 2, 1] =
        if ∃ v ∈ ([5, 5, 5, 2, 1] : List Int), 3 ≤ List.count v [5, 5, 5, 2, 1]
        then List.sum [5, 5, 5, 2, 1] else 0) ∧
       (evalRoll fourOfKind [5, 5, 5, 2, 1] =
        if ∃ v ∈ ([5, 5, 5, 2, 1] : List Int), 4 ≤ List.count v [5, 5, 5, 2, 1]
        then List.sum [5, 5, 5, 2, 1] else 0) ∧
       evalRoll chance [5, 5, 5, 2, 1] = List.sum [5, 5, 5, 2, 1]) :=
  ⟨by decide, ofKind_chance_scores [5, 5, 5, 2, 1] (by decide)⟩

/-- C4: for every valid hand, the smallStraight rule pays 30 exactly
when the distinct-value set contains {2,3,4} and not both 1 and 5 are
present, or contains {3,4,5} and not both 2 and 6 are present;
otherwise it returns 0. -/
theorem smallStraight_score (dice : List Int) (_h : validHand dice) :
    evalRoll smallStraight dice =
      if SpecSmallStraight dice then 30 else 0 :=
  smallStraight_eval dice

theorem smallStraight_score_witness :
    validHand [1, 2, 3, 4, 6] ∧
      evalRoll smallStraight [1, 2, 3, 4, 6] =
        (if SpecSmallStraight [1, 2, 3, 4, 6] then 30 else 0) :=
  ⟨by decide, smallStraight_score [1, 2, 3, 4, 6] (by decide)⟩

/-- C3 counterexample: the valid hand [2,3,4,6,6] contains no four
consecutive values, yet the smallStraight rule pays 30 on it — so the
"four consecutive values present" characterisation is false. -/
theorem smallStraight_fourRun_counterexample :
    validHand [2, 3, 4, 6, 6] ∧
      evalRoll smallStraight [2, 3, 4, 6, 6] = 30 ∧
      ¬ FourRun [2, 3, 4, 6, 6] := by decide

/-- C3 amended: for every valid hand, the smallStraight rule pays 30
iff the distinct values contain {2,3,4} with 1 and 5 not both present,
or contain {3,4,5} with 2 and 6 not both present — a full run of four
consecutive values is not required. -/
theorem smallStraight_amended (dice : List Int) (_h : validHand dice) :
    evalRoll smallStraight dice = 30 ↔ SpecSmallStraight dice := by
  rw [smallStraight_eval]
  by_cases hs : SpecSmallStraight dice <;> simp [hs]

theorem smallStraight_amended_witness :
    validHand [1, 2, 3, 4, 6] ∧
      (evalRoll Rules.smallStraight [1, 2, 3, 4, 6] = 30 ↔
        SpecSmallStraight [1, 2, 3, 4, 6]) :=
  ⟨by decide, smallStraight_amended [1, 2, 3, 4, 6] (by decide)⟩

/-- C8: for every valid hand, the largeStraight rule pays 40 iff the
hand has exactly 5 distinct values and not both 1 and 6 are present,
else 0; in particular [2,3,4,5,6] scores 40 and [1,2,3,4,6] scores 0. -/
theorem largeStraight_score (dice : List Int) (_h : validHand dice) :
    (SpecLargeStraight dice → evalRoll largeStraight dice = 40) ∧
    (¬ SpecLargeStraight dice → evalRoll largeStraight dice = 0) ∧
    evalRoll largeStraight [2, 3, 4, 5, 6] = 40 ∧
    evalRoll largeStraight [1, 2, 3, 4, 6] = 0 := by
  refine ⟨fun hs => ?_, fun hs => ?_, by decide, by decide⟩ <;>
    rw [largeStraight_eval] <;> simp [hs]

theorem largeStraight_score_witness :
    validHand [2, 3, 4, 5, 6] ∧
      ((SpecLargeStraight [2, 3, 4, 5, 6] →
          evalRoll largeStraight [2, 3, 4, 5, 6] = 40) ∧
       (¬ SpecLargeStraight [2, 3, 4, 5, 6] →
          evalRoll largeStraight [2, 3, 4, 5, 6] = 0) ∧
       evalRoll largeStraight [2, 3, 4, 5, 6] = 40 ∧
       evalRoll largeStraight [1, 2, 3, 4, 6] = 0) :=
  ⟨by decide, largeStraight_score [2, 3, 4, 5, 6] (by decide)⟩

/-! ## Full house and yahtzee -/

theorem getD_mem {l : List Nat} {i : Nat} {x : Nat} (hx : l.getD i 0 = x)
    (hxne : x ≠ 0) : x ∈ l := by
  have hlt : i < l.length := by
    by_contra hge
    rw [List.getD_eq_default l 0 (Nat.le_of_not_lt hge)] at hx
    exact hxne hx.symm
  rw [List.getD_eq_getElem l 0 hlt] at hx
  rw [← hx]
  exact List.getElem_mem hlt

theorem freq_perm_two_three (dice : List Int) (h5 : dice.length = 5)
    {v w : Int} (hvw : v ≠ w) (hv : dice.count v = 2)
    (hw : dice.count w = 3) : List.Perm (freq dice) [2, 3] := by
  have hvmem : v ∈ dice := by
    rw [← List.count_pos_iff]
    omega
  have hwmem : w ∈ dice := by
    rw [← List.count_pos_iff]
    omega
  have hvK : v ∈ mapKeys dice := mem_mapKeys.mpr hvmem
  have hwK : w ∈ mapKeys dice := mem_mapKeys.mpr hwmem
  have hwK2 : w ∈ (mapKeys dice).erase v :=
    (List.mem_erase_of_ne (Ne.symm hvw)).mpr hwK
  have p1 : List.Perm (mapKeys dice) (v :: (mapKeys dice).erase v) :=
    List.perm_cons_erase hvK
  have p2 : List.Perm ((mapKeys dice).erase v)
      (w :: ((mapKeys dice).erase v).erase w) := List.perm_cons_erase hwK2
  have pK : List.Perm (mapKeys dice)
      (v :: w :: ((mapKeys dice).erase v).erase w) := p1.trans (p2.cons v)
  have pf : List.Perm (freq dice)
      ((v :: w :: ((mapKeys dice).erase v).erase w).map
        (fun k => count dice k)) := pK.map _
  have hcv : count dice v = 2 := by
    rw [count_eq_listCount]
    exact hv
  have hcw : count dice w = 3 := by
    rw [count_eq_listCount]
    exact hw
  have hsum5 : ((v :: w :: ((mapKeys dice).erase v).erase w).map
      (fun k => count dice k)).sum = 5 := by
    rw [← pf.sum_eq, freq_sum, h5]
  have hRsum : ((((mapKeys dice).erase v).erase w).map
      (fun k => count dice k)).sum = 0 := by
    simp only [List.map_cons, List.sum_cons, hcv, hcw] at hsum5
    omega
  have hRnil : ((mapKeys dice).erase v).erase w = [] := by
    cases hRe : ((mapKeys dice).erase v).erase w with
    | nil => rfl
    | cons u t =>
      exfalso
      have hu : u ∈ ((mapKeys dice).erase v).erase w := by
        rw [hRe]
        exact List.mem_cons_self u t
      have humem : u ∈ dice :=
        mem_mapKeys.mp (List.mem_of_mem_erase (List.mem_of_mem_erase hu))
      have hcu0 : count dice u = 0 :=
        List.sum_eq_zero_iff.mp hRsum _ (List.mem_map_of_mem _ hu)
      have hcup : 0 < count dice u := by
        rw [count_eq_listCount]
        exact List.count_pos_iff.mpr humem
      omega
  rw [hRnil] at pf
  simpa [hcv, hcw] using pf

theorem fullHouse_cond (dice : List Int) (h5 : dice.length = 5) :
    (((List.insertionSort (· ≤ ·) (freq dice)).getD 0 0 == 2 &&
      (List.insertionSort (· ≤ ·) (freq dice)).getD 1 0 == 3) = true) ↔
      SpecFullHouse dice := by
  rw [Bool.and_eq_true, beq_iff_eq, beq_iff_eq]
  constructor
  · rintro ⟨h0, h1⟩
    have hperm := List.perm_insertionSort (· ≤ ·) (freq dice)
    have h2m : (2 : Nat) ∈ freq dice :=
      hperm.mem_iff.mp (getD_mem h0 (by omega))
    have h3m : (3 : Nat) ∈ freq dice :=
      hperm.mem_iff.mp (getD_mem h1 (by omega))
    obtain ⟨v, hvmem, hcv⟩ := mem_freq.mp h2m
    obtain ⟨w, hwmem, hcw⟩ := mem_freq.mp h3m
    refine ⟨v, w, ?_, ?_, ?_⟩
    · intro hvw
      rw [hvw, hcw] at hcv
      exact absurd hcv (by omega)
    · rw [← count_eq_listCount]
      exact hcv
    · rw [← count_eq_listCount]
      exact hcw
  · rintro ⟨v, w, hvw, hv, hw⟩
    have hp23 := freq_perm_two_three dice h5 hvw hv hw
    have heq : List.insertionSort (· ≤ ·) (freq dice) = [2, 3] :=
      List.eq_of_perm_of_sorted ((List.perm_insertionSort _ _).trans hp23)
        (List.sorted_insertionSort _ _) (by decide)
    rw [heq]
    exact ⟨rfl, rfl⟩

/-- C7: for every valid hand, the fullHouse rule pays 25 iff one value
appears exactly twice and another value appears exactly three times
(sorted frequency multiset exactly {2,3}); otherwise it returns 0. -/
theorem fullHouse_score (dice : List Int) (h : validHand dice) :
    (SpecFullHouse dice → evalRoll fullHouse dice = 25) ∧
    (¬ SpecFullHouse dice → evalRoll fullHouse dice = 0) := by
  have hcond := fullHouse_cond dice h.1
  have he : evalRoll fullHouse dice =
      if ((List.insertionSort (· ≤ ·) (freq dice)).getD 0 0 == 2 &&
          (List.insertionSort (· ≤ ·) (freq dice)).getD 1 0 == 3) = true
      then 25 else 0 := rfl
  constructor
  · intro hs
    rw [he, if_pos (hcond.mpr hs)]
  · intro hs
    rw [he, if_neg fun hx => hs (hcond.mp hx)]

theorem fullHouse_score_witness :
    validHand [2, 2, 3, 3, 3] ∧
      ((SpecFullHouse [2, 2, 3, 3, 3] →
          evalRoll fullHouse [2, 2, 3, 3, 3] = 25) ∧
       (¬ SpecFullHouse [2, 2, 3, 3, 3] →
          evalRoll fullHouse [2, 2, 3, 3, 3] = 0)) :=
  ⟨by decide, fullHouse_score [2, 2, 3, 3, 3] (by decide)⟩

theorem eq_single_of_nodup {K : List Int} {v : Int} (hn : K.Nodup)
    (hv : v ∈ K) (hall : ∀ u ∈ K, u = v) : K = [v] := by
  match K, hv with
  | u :: t, _ =>
    have hu : u = v := hall u (List.mem_cons_self u t)
    cases ht : t with
    | nil => rw [hu]
    | cons w t2 =>
      exfalso
      have hw : w ∈ t := by
        rw [ht]
        exact List.mem_cons_self w t2
      have hwv : w = v := hall w (List.mem_cons_of_mem u hw)
      have hut : u ∉ t := (List.nodup_cons.mp hn).1
      rw [hu, ← hwv] at hut
      exact hut hw

theorem yahtzee_cond (dice : List Int) (h5 : dice.length = 5) :
    (((freq dice).getD 0 0 == 5) = true) ↔ SpecYahtzee dice := by
  rw [beq_iff_eq]
  constructor
  · intro h0
    cases hK : mapKeys dice with
    | nil =>
      exfalso
      unfold freq at h0
      rw [hK] at h0
      simp [List.getD] at h0
    | cons k t =>
      have hf : freq dice = count dice k :: t.map (fun x => count dice x) := by
        unfold freq
        rw [hK, List.map_cons]
      rw [hf] at h0
      simp only [List.getD_cons_zero] at h0
      have hkmem : k ∈ dice := mem_mapKeys.mp (by
        rw [hK]
        exact List.mem_cons_self k t)
      have hallk : ∀ b ∈ dice, k = b := by
        apply List.count_eq_length.mp
        rw [← count_eq_listCount, h0, h5]
      exact ⟨k, hkmem, fun x hx => (hallk x hx).symm⟩
  · rintro ⟨v, hvmem, hall⟩
    have hK : mapKeys dice = [v] :=
      eq_single_of_nodup (nodup_mapKeys dice) (mem_mapKeys.mpr hvmem)
        (fun u hu => hall u (mem_mapKeys.mp hu))
    have hf : freq dice = [count dice v] := by
      unfold freq
      rw [hK, List.map_cons, List.map_nil]
    rw [hf, List.getD_cons_zero, count_eq_listCount,
      List.count_eq_length.mpr (fun b hb => (hall b hb).symm), h5]

/-- C9: for every valid hand, the yahtzee rule pays 50 iff all five
dice are identical; otherwise it returns 0. -/
theorem yahtzee_score (dice : List Int) (h : validHand dice) :
    (SpecYahtzee dice → evalRoll yahtzee dice = 50) ∧
    (¬ SpecYahtzee dice → evalRoll yahtzee dice = 0) := by
  have hcond := yahtzee_cond dice h.1
  have he : evalRoll yahtzee dice =
      if ((freq dice).getD 0 0 == 5) = true then 50 else 0 := rfl
  constructor
  · intro hs
    rw [he, if_pos (hcond.mpr hs)]
  · intro hs
    rw [he, if_neg fun hx => hs (hcond.mp hx)]

theorem yahtzee_score_witness :
    validHand [4, 4, 4, 4, 4] ∧
      ((SpecYahtzee [4, 4, 4, 4, 4] →
          evalRoll yahtzee [4, 4, 4, 4, 4] = 50) ∧
       (¬ SpecYahtzee [4, 4, 4, 4, 4] →
          evalRoll yahtzee [4, 4, 4, 4, 4] = 0)) :=
  ⟨by decide, yahtzee_score [4, 4, 4, 4, 4] (by decide)⟩

/-! ## Non-negativity and the registry interface -/

/-- C10: for every valid hand and every one of the thirteen configured
rules, evaluation returns an integer score that is at least 0. -/
theorem scores_nonneg (dice : List Int) (h : validHand dice) :
    ∀ r ∈ theRules, 0 ≤ evalRoll r dice := by
  obtain ⟨h5, hb⟩ := h
  have hne : dice ≠ [] := by
    intro he
    rw [he] at h5
    simp at h5
  have hsum : 0 ≤ sum dice := by
    rw [sum_eq_listSum hne]
    exact List.sum_nonneg fun x hx => le_trans (by norm_num) (hb x hx).1
  have htot : ∀ v : Int, 0 ≤ v → 0 ≤ evalRoll (.totalOneNumber v) dice :=
    fun v hv => mul_nonneg hv (Int.natCast_nonneg _)
  have hdist : ∀ cnt : Nat, 0 ≤ evalRoll (.sumDistro cnt) dice := by
    intro cnt
    show 0 ≤ if (freq dice).any (fun c => cnt ≤ c) = true then sum dice else 0
    split_ifs
    · exact hsum
    · exact le_refl 0
  intro r hr
  simp only [theRules, registry, List.map_cons, List.map_nil, List.mem_cons,
    List.not_mem_nil, or_false] at hr
  rcases hr with rfl|rfl|rfl|rfl|rfl|rfl|rfl|rfl|rfl|rfl|rfl|rfl|rfl
  · exact htot 1 (by norm_num)
  · exact htot 2 (by norm_num)
  · exact htot 3 (by norm_num)
  · exact htot 4 (by norm_num)
  · exact htot 5 (by norm_num)
  · exact htot 6 (by norm_num)
  · exact hdist 3
  · exact hdist 4
  · show 0 ≤ evalRoll (.fullHouse 25) dice
    have he : evalRoll (.fullHouse 25) dice =
        if ((List.insertionSort (· ≤ ·) (freq dice)).getD 0 0 == 2 &&
            (List.insertionSort (· ≤ ·) (freq dice)).getD 1 0 == 3) = true
        then 25 else 0 := rfl
    rw [he]
    split_ifs <;> norm_num
  · rw [smallStraight_eval]
    split_ifs <;> norm_num
  · rw [largeStraight_eval]
    split_ifs <;> norm_num
  · show 0 ≤ evalRoll (.yahtzee 50) dice
    have he : evalRoll (.yahtzee 50) dice =
        if ((freq dice).getD 0 0 == 5) = true then 50 else 0 := rfl
    rw [he]
    split_ifs <;> norm_num
  · exact hdist 0

theorem scores_nonneg_witness :
    validHand [1, 2, 3, 4, 5] ∧
      ∀ r ∈ theRules, 0 ≤ evalRoll r [1, 2, 3, 4, 5] :=
  ⟨by decide, scores_nonneg [1, 2, 3, 4, 5] (by decide)⟩

/-- C1 counterexample: the malformed hand [7,7,7,7] (length 4, values
out of range) is scored silently — `score` on category "ones"
returns the numeric result 0 instead of raising `InvalidHandError`. -/
theorem invalid_hand_scored_counterexample :
    ¬ validHand [7, 7, 7, 7] ∧
      score "ones" [7, 7, 7, 7] = .ok 0 :=
  ⟨by decide, rfl⟩

/-- C1 amended: the engine performs no hand validation — for every
hand of any shape (malformed or not) and every registered category,
scoring returns a numeric result, never an error. -/
theorem score_no_validation (name : String) (dice : List Int)
    (h : name ∈ categoryNames) :
    ∃ n : Int, score name dice = .ok n := by
  simp only [categoryNames, registry, List.map_cons, List.map_nil,
    List.mem_cons, List.not_mem_nil, or_false] at h
  rcases h with rfl|rfl|rfl|rfl|rfl|rfl|rfl|rfl|rfl|rfl|rfl|rfl|rfl <;>
    exact ⟨_, rfl⟩

theorem score_no_validation_witness :
    "ones" ∈ categoryNames ∧
      ∃ n : Int, score "ones" [7, 7, 7, 7] = .ok n :=
  ⟨by decide, score_no_validation "ones" [7, 7, 7, 7] (by decide)⟩

/-- C2: for every category name not among the thirteen registered
names, `score` returns `UnknownCategoryError` — it never falls back
to a default category. -/
theorem score_unknown_category (name : String) (dice : List Int)
    (h : name ∉ categoryNames) :
    score name dice = .error .unknownCategory := by
  simp only [categoryNames, registry, List.map_cons, List.map_nil,
    List.mem_cons, List.not_mem_nil, or_false, not_or] at h
  obtain ⟨h1, h2, h3, h4, h5, h6, h7, h8, h9, h10, h11, h12, h13⟩ := h
  simp only [score, registry, List.lookup,
    beq_eq_false_iff_ne.mpr h1, beq_eq_false_iff_ne.mpr h2,
    beq_eq_false_iff_ne.mpr h3, beq_eq_false_iff_ne.mpr h4,
    beq_eq_false_iff_ne.mpr h5, beq_eq_false_iff_ne.mpr h6,
    beq_eq_false_iff_ne.mpr h7, beq_eq_false_iff_ne.mpr h8,
    beq_eq_false_iff_ne.mpr h9, beq_eq_false_iff_ne.mpr h10,
    beq_eq_false_iff_ne.mpr h11, beq_eq_false_iff_ne.mpr h12,
    beq_eq_false_iff_ne.mpr h13]

theorem score_unknown_category_witness :
    "grandStraight" ∉ categoryNames ∧
      score "grandStraight" [1, 1, 1, 1, 1] = .error .unknownCategory :=
  ⟨by decide, score_unknown_category "grandStraight" [1, 1, 1, 1, 1]
    (by decide)⟩

end Rules
